import Mathlib

/-!
A verification development for the ChronicMind memory engine
(`server/memory.ts`, `shared/schema.ts`).

The TypeScript source is shallowly embedded: JavaScript numbers are
modelled as real numbers (`ℝ`); the purely rational accumulation phase of
the embedder is kept in `ℚ` so that it stays decidable, and only the final
L2-normalisation (which introduces square roots) moves to `ℝ`.  Strings
are Lean `String`s / `List Char`; `charCodeAt` is modelled by `Char.toNat`
(exact for the ASCII word characters that survive the punctuation strip).
JavaScript's `toLowerCase`/`toUpperCase` are modelled on the ASCII range,
which is exact for every character class the code keeps.
-/

/-- Model of the JavaScript regex class `\s` (whitespace), restricted to
the code points that can actually appear: ASCII whitespace plus the common
Unicode space separators matched by `\s`. -/
def jsIsSpace (c : Char) : Bool :=
  c.toNat = 9 || c.toNat = 10 || c.toNat = 11 || c.toNat = 12 || c.toNat = 13 ||
  c.toNat = 32 || c.toNat = 160 || c.toNat = 5760 ||
  (8192 ≤ c.toNat && c.toNat ≤ 8202) || c.toNat = 8232 || c.toNat = 8233 ||
  c.toNat = 8239 || c.toNat = 8287 || c.toNat = 12288 || c.toNat = 65279

/-- Model of the JavaScript regex class `\w`: `[A-Za-z0-9_]`. -/
def jsIsWordChar (c : Char) : Bool :=
  (97 ≤ c.toNat && c.toNat ≤ 122) || (65 ≤ c.toNat && c.toNat ≤ 90) ||
  (48 ≤ c.toNat && c.toNat ≤ 57) || c.toNat = 95

/-- ASCII model of `String.prototype.toLowerCase` on a single character. -/
def jsToLowerChar (c : Char) : Char :=
  if 65 ≤ c.toNat ∧ c.toNat ≤ 90 then Char.ofNat (c.toNat + 32) else c

/-- ASCII model of `String.prototype.toUpperCase` on a single character. -/
def jsToUpperChar (c : Char) : Char :=
  if 97 ≤ c.toNat ∧ c.toNat ≤ 122 then Char.ofNat (c.toNat - 32) else c

/-- `text.toLowerCase().replace(/[^\w\s]/g, "")` from `simpleEmbedding`:
lowercase, then delete every character that is neither a word character
nor whitespace. -/
def preprocess (l : List Char) : List Char :=
  (l.map jsToLowerChar).filter (fun c => jsIsWordChar c || jsIsSpace c)

/-- Accumulator worker for `tokensWS`: `acc` holds the (reversed) current
token being built. -/
def tokensAux : List Char → List Char → List (List Char)
  | [], acc => if acc.isEmpty then [] else [acc.reverse]
  | c :: cs, acc =>
    if jsIsSpace c then
      if acc.isEmpty then tokensAux cs [] else acc.reverse :: tokensAux cs []
    else tokensAux cs (c :: acc)

/-- Maximal non-empty whitespace-separated chunks of a character list:
the tokens produced by splitting on runs of whitespace, with no empty
tokens.  This is the tokenizer of the spec's reference algorithm. -/
def tokensWS (l : List Char) : List (List Char) := tokensAux l []

/-- Accumulator worker for `jsSplitWS`: `acc` holds the (reversed) piece
being built, `inRun` records whether the previous character was part of a
whitespace run (so further whitespace extends the same separator). -/
def jsSplitAux : List Char → List Char → Bool → List (List Char)
  | [], acc, _ => [acc.reverse]
  | c :: cs, acc, inRun =>
    if jsIsSpace c then
      if inRun then jsSplitAux cs [] true
      else acc.reverse :: jsSplitAux cs [] true
    else jsSplitAux cs (c :: acc) false

/-- Model of JavaScript `str.split(/\s+/)`: the pieces between maximal
whitespace runs.  Unlike `tokensWS`, a string that starts (resp. ends)
with whitespace contributes a leading (resp. trailing) *empty* piece, and
the empty string yields `[""]`. -/
def jsSplitWS (l : List Char) : List (List Char) := jsSplitAux l [] false

/-- `vector[idx] += q` from the accumulation loop of `simpleEmbedding`. -/
def bump (v : List ℚ) (idx : Nat) (q : ℚ) : List ℚ :=
  v.set idx (v.getD idx 0 + q)

/-- The inner character loop of `simpleEmbedding`: token `w` sits at word
position `i`, its characters are scanned from offset `j` upward, and each
character `c` adds `1 / (i + 1)` to bucket `(c.toNat + i + j) % 256`. -/
def accumWordFrom (i : Nat) : Nat → List Char → List ℚ → List ℚ
  | _, [], v => v
  | j, c :: cs, v =>
    accumWordFrom i (j + 1) cs (bump v ((c.toNat + i + j) % 256) (1 / (i + 1)))

/-- The outer word loop of `simpleEmbedding`, starting at word index `i`. -/
def accumWordsFrom : Nat → List (List Char) → List ℚ → List ℚ
  | _, [], v => v
  | i, w :: ws, v => accumWordsFrom (i + 1) ws (accumWordFrom i 0 w v)

/-- The un-normalised accumulator of `simpleEmbedding`: the 256-bucket
vector after the two nested loops, with the word list produced by
JavaScript `split(/\s+/)` exactly as in the source. -/
def rawVector (text : List Char) : List ℚ :=
  accumWordsFrom 0 (jsSplitWS (preprocess text)) (List.replicate 256 0)

/-- Sum of squared entries of a rational vector (the radicand of the
`norm` computed by `simpleEmbedding`). -/
def sumSq (v : List ℚ) : ℚ := (v.map (fun x => x * x)).sum

/-- L2-normalisation step of `simpleEmbedding`: the source computes
`norm = Math.sqrt (sum of squares)` and divides every entry when
`norm > 0`.  Since `Real.sqrt s > 0 ↔ s > 0`, the branch condition is
written on the (decidable) rational radicand. -/
noncomputable def l2normalize (v : List ℚ) : List ℝ :=
  if 0 < sumSq v then
    v.map (fun q : ℚ => (Rat.cast q : ℝ) / Real.sqrt (Rat.cast (sumSq v)))
  else v.map (fun q : ℚ => (Rat.cast q : ℝ))

/-- `simpleEmbedding` from `server/memory.ts`. -/
noncomputable def simpleEmbedding (text : List Char) : List ℝ :=
  l2normalize (rawVector text)

/-- The accumulator of the spec's reference embedding algorithm, which
differs from the source only in its tokenizer: "tokenize on whitespace"
yields the non-empty tokens `tokensWS`, with the first token at position
`i = 0`. -/
def rawVectorRef (text : List Char) : List ℚ :=
  accumWordsFrom 0 (tokensWS (preprocess text)) (List.replicate 256 0)

/-- The spec's reference embedding algorithm (stated from the spec's
words, for comparison against `simpleEmbedding`): lowercase, strip
punctuation, tokenize on whitespace, accumulate `1/(i+1)` into bucket
`(charCode + i + j) % 256`, then L2-normalise (all zeros stay all
zeros). -/
noncomputable def referenceEmbedding (text : List Char) : List ℝ :=
  l2normalize (rawVectorRef text)

/-! ## Similarity engine (`cosineSimilarity` in `server/memory.ts`) -/

/-- The loop accumulator `dotProduct` of `cosineSimilarity`: the sum of
pairwise products over the common prefix of the two vectors (the loop runs
to `a.length`, which equals `b.length` on the only path that uses it). -/
noncomputable def dotProduct (a b : List ℝ) : ℝ := (List.zipWith (· * ·) a b).sum

/-- The loop accumulator `normA` (resp. `normB`) of `cosineSimilarity`:
the sum of squared entries, i.e. the squared Euclidean norm. -/
noncomputable def normSq (a : List ℝ) : ℝ := (a.map (fun x => x * x)).sum

/-- `cosineSimilarity` from `server/memory.ts`.  Returns `0` on a length
mismatch; the code then tests `normA === 0 || normB === 0` (the *squared*
norms) and returns `0`; otherwise it divides the dot product by the
product of the square roots. -/
noncomputable def cosineSimilarity (a b : List ℝ) : ℝ :=
  if a.length ≠ b.length then 0
  else if normSq a = 0 ∨ normSq b = 0 then 0
  else dotProduct a b / (Real.sqrt (normSq a) * Real.sqrt (normSq b))

/-! ## Data model (rows of `shared/schema.ts` as seen by the memory engine) -/

/-- A `memory_facts` row, restricted to the fields the engine reads. -/
structure MemoryFact where
  category : String
  key : String
  value : String
deriving DecidableEq, Repr

/-- A `memory_summaries` row, restricted to the fields the engine reads. -/
structure MemorySummary where
  content : String
deriving DecidableEq, Repr

/-- A `memory_embeddings` row, restricted to the fields the engine reads. -/
structure MemoryEmbedding where
  content : String
  embedding : List ℝ

/-- A chat message as consumed by the engine (`role`, `content`). -/
structure Message where
  role : String
  content : String
deriving DecidableEq, Repr

/-! ## Retriever (`findRelevantMemories` in `server/memory.ts`) -/

/-- Stable insertion into a list sorted by strictly descending score: the
new element goes after every element whose score is `≥` its own,
modelling the stable `sort((a, b) => b.score - a.score)`. -/
noncomputable def insertDesc {α : Type} (x : α × ℝ) : List (α × ℝ) → List (α × ℝ)
  | [] => [x]
  | y :: ys => if y.2 < x.2 then x :: y :: ys else y :: insertDesc x ys

/-- Stable descending sort by score (JavaScript `Array.prototype.sort`
with comparator `(a, b) => b.score - a.score`; the ECMAScript sort is
stable, so ties keep their original order). -/
noncomputable def sortByScoreDesc {α : Type} (l : List (α × ℝ)) : List (α × ℝ) :=
  l.foldr insertDesc []

/-- Result record of `findRelevantMemories`. -/
structure RelevantMemories where
  facts : List MemoryFact
  summaries : List MemorySummary
  embeddings : List MemoryEmbedding

/-- `findRelevantMemories` from `server/memory.ts`.  The three
user-scoped storage reads (`getMemoryFacts`, `getMemorySummaries`,
`getMemoryEmbeddings`) are modelled as the input lists `facts`,
`summaries`, `embeddings`; the function scores each source against the
query embedding, sorts descending and slices. -/
noncomputable def findRelevantMemories (facts : List MemoryFact)
    (summaries : List MemorySummary) (embeddings : List MemoryEmbedding)
    (query : String) (limit : Nat) : RelevantMemories :=
  let queryEmbedding := simpleEmbedding query.toList
  let scoredEmbeddings :=
    (sortByScoreDesc (embeddings.map
      (fun emb => (emb, cosineSimilarity queryEmbedding emb.embedding)))).take limit
  let scoredFacts :=
    (sortByScoreDesc (facts.map
      (fun fact => (fact, cosineSimilarity queryEmbedding
        (simpleEmbedding (fact.key ++ ": " ++ fact.value).toList))))).take limit
  let scoredSummaries :=
    (sortByScoreDesc (summaries.map
      (fun summary => (summary, cosineSimilarity queryEmbedding
        (simpleEmbedding summary.content.toList))))).take ((limit + 1) / 2)
  { facts := scoredFacts.map (fun s => s.1),
    summaries := scoredSummaries.map (fun s => s.1),
    embeddings := scoredEmbeddings.map (fun s => s.1) }

/-! ## Fact storage (`storeExtractedMemory` in `server/memory.ts`) -/

/-- One fact candidate of the `ExtractedMemory` interface.  `confidence`
is `none` when the extractor's JSON omitted the field (the TypeScript
value would be `undefined`). -/
structure ExtractedFact where
  category : String
  key : String
  value : String
  confidence : Option ℚ
deriving DecidableEq, Repr

/-- The `ExtractedMemory` interface of `server/memory.ts`. -/
structure ExtractedMemory where
  facts : List ExtractedFact
deriving DecidableEq, Repr

/-- An `InsertMemoryFact` record as handed to
`storage.createMemoryFact` (a plain DB insert of these values). -/
structure InsertMemoryFact where
  userId : String
  category : String
  key : String
  value : String
  confidence : Option ℚ
  sourceMessageId : Option String
deriving DecidableEq, Repr

/-- `storeExtractedMemory` from `server/memory.ts`, modelled by the list
of `InsertMemoryFact` rows it hands to the store.  Each per-row DB insert
is wrapped in its own try/catch in the source; inserts are modelled as
succeeding, since the claims are about the values stored. -/
def storeExtractedMemory (userId : String) (extracted : ExtractedMemory)
    (sourceMessageId : Option String) : List InsertMemoryFact :=
  extracted.facts.map (fun fact =>
    { userId := userId, category := fact.category, key := fact.key,
      value := fact.value, confidence := fact.confidence,
      sourceMessageId := sourceMessageId })

/-- The confidence a stored row ends up with in the database: the column
is declared `real("confidence").default(1.0)` in `shared/schema.ts`, so a
row inserted without a confidence gets `1.0`. -/
def storedConfidence (row : InsertMemoryFact) : ℚ :=
  row.confidence.getD 1

/-- The closed six-value category set of the spec and of the
`MemoryCategory` type in `shared/schema.ts`. -/
def allowedCategories : List String :=
  ["preferences", "goals", "constraints", "skills", "projects", "personal"]

/-! ## JSON (model of `JSON.parse` for the extractor) -/

/-- JSON values.  Numbers are kept as an exact pair
(`mantissa`, `exp10`) denoting `mantissa * 10 ^ exp10`, which represents
every JSON numeric literal faithfully without rational arithmetic. -/
inductive Json where
  | null : Json
  | boolean : Bool → Json
  | number : Int → Int → Json
  | string : String → Json
  | array : List Json → Json
  | object : List (String × Json) → Json

/-- JSON whitespace accepted by `JSON.parse`. -/
def jsonWs (c : Char) : Bool :=
  c = ' ' || c = '\t' || c = '\n' || c = '\r'

/-- Drop leading JSON whitespace. -/
def skipWs : List Char → List Char
  | [] => []
  | c :: cs => if jsonWs c then skipWs cs else c :: cs

/-- Parse the remainder of a JSON string literal (opening quote already
consumed), returning the decoded characters and the rest of the input.
Supported escapes are the single-character ones; `\u` escapes are outside
this model. -/
def parseStringChars : List Char → Option (List Char × List Char)
  | [] => none
  | c :: cs =>
    if c = '"' then some ([], cs)
    else if c = '\\' then
      match cs with
      | [] => none
      | e :: cs' =>
        let esc : Option Char :=
          if e = '"' then some '"' else if e = '\\' then some '\\'
          else if e = '/' then some '/' else if e = 'b' then some (Char.ofNat 8)
          else if e = 'f' then some (Char.ofNat 12) else if e = 'n' then some '\n'
          else if e = 'r' then some '\r' else if e = 't' then some '\t' else none
        match esc with
        | none => none
        | some ch =>
          match parseStringChars cs' with
          | none => none
          | some (s, rest) => some (ch :: s, rest)
    else
      match parseStringChars cs with
      | none => none
      | some (s, rest) => some (c :: s, rest)

/-- Greedily read decimal digits, returning their value, how many there
were, and the rest of the input. -/
def parseDigits : Nat → Nat → List Char → Nat × Nat × List Char
  | acc, cnt, [] => (acc, cnt, [])
  | acc, cnt, c :: cs =>
    if 48 ≤ c.toNat ∧ c.toNat ≤ 57 then
      parseDigits (acc * 10 + (c.toNat - 48)) (cnt + 1) cs
    else (acc, cnt, c :: cs)

/-- Parse a JSON number per the `JSON.parse` grammar
(`-? (0 | [1-9][0-9]*) (\.[0-9]+)? ([eE][+-]?[0-9]+)?`), returned as a
(`mantissa`, `exp10`) pair. -/
def parseNumber (l : List Char) : Option ((Int × Int) × List Char) :=
  let (sign, l1) : Int × List Char :=
    match l with
    | c :: cs => if c = '-' then (-1, cs) else (1, l)
    | [] => (1, l)
  match l1 with
  | [] => none
  | d :: _ =>
    if 48 ≤ d.toNat ∧ d.toNat ≤ 57 then
      let (ival, icnt, l2) := parseDigits 0 0 l1
      if icnt = 0 then none
      else if 1 < icnt ∧ d = '0' then none
      else
        let (fval, fcnt, l3) :=
          match l2 with
          | '.' :: cs =>
            let (fv, fc, rest) := parseDigits 0 0 cs
            (fv, fc, rest)
          | _ => (0, 0, l2)
        if (match l2 with | '.' :: _ => fcnt == 0 | _ => false) then none
        else
          let mantissa : Int := sign * (ival * 10 ^ fcnt + fval)
          match l3 with
          | 'e' :: cs => parseExponent mantissa fcnt cs
          | 'E' :: cs => parseExponent mantissa fcnt cs
          | _ => some ((mantissa, -(fcnt : Int)), l3)
    else none
where
  parseExponent (mantissa : Int) (fcnt : Nat) (cs : List Char) :
      Option ((Int × Int) × List Char) :=
    let (esign, cs1) : Int × List Char :=
      match cs with
      | c :: rest => if c = '-' then (-1, rest) else if c = '+' then (1, rest) else (1, cs)
      | [] => (1, cs)
    let (eval, ecnt, rest) := parseDigits 0 0 cs1
    if ecnt = 0 then none
    else some ((mantissa, esign * eval - (fcnt : Int)), rest)

mutual

/-- Fuel-indexed recursive-descent parser for a JSON value, modelling
`JSON.parse`.  Returns the value and the unconsumed input. -/
def parseValue : Nat → List Char → Option (Json × List Char)
  | 0, _ => none
  | fuel + 1, l =>
    match skipWs l with
    | [] => none
    | c :: cs =>
      if c = '{' then
        match skipWs cs with
        | '}' :: rest => some (Json.object [], rest)
        | _ => match parseMembers fuel cs with
          | some (fields, rest) => some (Json.object fields, rest)
          | none => none
      else if c = '[' then
        match skipWs cs with
        | ']' :: rest => some (Json.array [], rest)
        | _ => match parseElements fuel cs with
          | some (elems, rest) => some (Json.array elems, rest)
          | none => none
      else if c = '"' then
        match parseStringChars cs with
        | some (s, rest) => some (Json.string (String.mk s), rest)
        | none => none
      else if c = 't' then
        match cs with
        | 'r' :: 'u' :: 'e' :: rest => some (Json.boolean true, rest)
        | _ => none
      else if c = 'f' then
        match cs with
        | 'a' :: 'l' :: 's' :: 'e' :: rest => some (Json.boolean false, rest)
        | _ => none
      else if c = 'n' then
        match cs with
        | 'u' :: 'l' :: 'l' :: rest => some (Json.null, rest)
        | _ => none
      else
        match parseNumber (c :: cs) with
        | some ((m, e), rest) => some (Json.number m e, rest)
        | none => none

/-- Parse one or more comma-separated array elements (after `[`). -/
def parseElements : Nat → List Char → Option (List Json × List Char)
  | 0, _ => none
  | fuel + 1, l =>
    match parseValue fuel l with
    | none => none
    | some (j, rest) =>
      match skipWs rest with
      | ',' :: rest' =>
        match parseElements fuel rest' with
        | some (js, rest'') => some (j :: js, rest'')
        | none => none
      | ']' :: rest' => some ([j], rest')
      | _ => none

/-- Parse one or more comma-separated object members (after `{`). -/
def parseMembers : Nat → List Char → Option (List (String × Json) × List Char)
  | 0, _ => none
  | fuel + 1, l =>
    match skipWs l with
    | '"' :: cs =>
      match parseStringChars cs with
      | none => none
      | some (k, rest) =>
        match skipWs rest with
        | ':' :: rest' =>
          match parseValue fuel rest' with
          | none => none
          | some (j, rest'') =>
            match skipWs rest'' with
            | ',' :: rest3 =>
              match parseMembers fuel rest3 with
              | some (fields, rest4) => some ((String.mk k, j) :: fields, rest4)
              | none => none
            | '}' :: rest3 => some ([(String.mk k, j)], rest3)
            | _ => none
        | _ => none
    | _ => none

end

/-- `JSON.parse`: parse a complete JSON document (value plus trailing
whitespace only); anything else is a parse error (`none`, modelling the
thrown `SyntaxError`). -/
def parseJson (l : List Char) : Option Json :=
  match parseValue (l.length + 8) l with
  | some (j, rest) => if (skipWs rest).isEmpty then some j else none
  | none => none

/-- Model of `response.match(/\{[\s\S]*\}/)`: the regex is greedy, so a
match (when one exists) runs from the *first* `{` of the string to the
*last* `}`, provided that `}` comes after that `{`. -/
def jsonMatch (s : List Char) : Option (List Char) :=
  match s.findIdx? (fun c => c = '{'), s.reverse.findIdx? (fun c => c = '}') with
  | some i, some jr =>
    let j := s.length - 1 - jr
    if i < j then some ((s.take (j + 1)).drop i) else none
  | _, _ => none

/-- The first balanced `{...}` region of a string (the spec's notion):
scan to the first `{`, then take characters until the brace depth returns
to zero.  (Brace counting is over raw characters, as the spec's wording
suggests.) -/
def balancedFrom : List Char → Nat → List Char → Option (List Char)
  | [], _, _ => none
  | c :: cs, depth, acc =>
    if c = '{' then balancedFrom cs (depth + 1) (c :: acc)
    else if c = '}' then
      if depth = 1 then some (c :: acc).reverse else balancedFrom cs (depth - 1) (c :: acc)
    else balancedFrom cs depth (c :: acc)

/-- Locate the first balanced `{...}` region, if any. -/
def firstBalancedRegion (s : List Char) : Option (List Char) :=
  match s with
  | [] => none
  | c :: cs => if c = '{' then balancedFrom cs 1 [c] else firstBalancedRegion cs

/-- Look up a key in a parsed JSON object the way a JavaScript property
read sees it: with duplicate keys, the last occurrence wins. -/
def jsObjGet (fields : List (String × Json)) (k : String) : Option Json :=
  (fields.reverse.find? (fun p => p.1 == k)).map (fun p => p.2)

/-- A fact candidate as decoded from the oracle's JSON:
`{category, key, value, confidence}` with string fields and an optional
numeric confidence (kept as the exact (`mantissa`, `exp10`) pair). -/
structure DecodedFact where
  category : String
  key : String
  value : String
  confidence : Option (Int × Int)
deriving DecidableEq, Repr

/-- Structured decoding of one fact object. -/
def decodeFact (j : Json) : Option DecodedFact :=
  match j with
  | Json.object fs =>
    match jsObjGet fs "category", jsObjGet fs "key", jsObjGet fs "value" with
    | some (Json.string c), some (Json.string k), some (Json.string v) =>
      match jsObjGet fs "confidence" with
      | some (Json.number m e) => some ⟨c, k, v, some (m, e)⟩
      | none => some ⟨c, k, v, none⟩
      | some _ => none
    | _, _, _ => none
  | _ => none

/-- Structured decoding of `{facts: [...]}` into a fact candidate list. -/
def decodeExtracted (j : Json) : Option (List DecodedFact) :=
  match j with
  | Json.object fs =>
    match jsObjGet fs "facts" with
    | some (Json.array elems) => elems.mapM decodeFact
    | _ => none
  | _ => none

/-! ## Fact extractor (`extractMemoryFromConversation` in `server/memory.ts`) -/

/-- The fixed instruction prompt `MEMORY_EXTRACTION_PROMPT` of
`server/memory.ts`. -/
def MEMORY_EXTRACTION_PROMPT : String :=
  "Analyze this conversation and extract structured facts about the user. Focus on:\n- Preferences (likes, dislikes, habits)\n- Goals (short-term and long-term objectives)\n- Constraints (limitations, restrictions, requirements)\n- Skills (abilities, expertise, experience)\n- Projects (current work, tasks, initiatives)\n- Personal (name, location, relationships, important details)\n\nReturn a JSON object with this structure:\n\x7b\n  \"facts\": [\n    \x7b\n      \"category\": \"preferences|goals|constraints|skills|projects|personal\",\n      \"key\": \"brief label\",\n      \"value\": \"detailed information\",\n      \"confidence\": 0.0-1.0\n    \x7d\n  ]\n\x7d\n\nOnly extract facts that are clearly stated or strongly implied. Be concise but informative."

/-- The literal TypeScript object `{ facts: [] }` returned on every
failure path of the extractor. -/
def emptyExtracted : Json := Json.object [("facts", Json.array [])]

/-- `extractMemoryFromConversation` from `server/memory.ts`.  The async
oracle `callLLM` is modelled as `String → Option String` (`none` models a
thrown/rejected call, which the source's try/catch swallows).  The result
pairs the returned value — the raw `JSON.parse` result, cast unvalidated
to `ExtractedMemory` by the source — with the number of oracle
invocations made. -/
def extractMemoryFromConversation (messages : List Message) (userId : String)
    (callLLM : String → Option String) : Json × Nat :=
  if messages.isEmpty then (emptyExtracted, 0)
  else
    let conversationText :=
      String.intercalate "\n\n" (messages.map (fun m => m.role ++ ": " ++ m.content))
    let prompt := MEMORY_EXTRACTION_PROMPT ++ "\n\nConversation:\n" ++ conversationText
    match callLLM prompt with
    | none => (emptyExtracted, 1)
    | some response =>
      match jsonMatch response.toList with
      | none => (emptyExtracted, 1)
      | some region =>
        match parseJson region with
        | some parsed => (parsed, 1)
        | none => (emptyExtracted, 1)

/-- The spec's parsing rule, stated from its words: locate the *first
balanced* `{...}` region of the oracle response, attempt structured
decoding into `{facts: [...]}`, and degrade to an empty fact list on any
failure. -/
def specExtractFacts (response : String) : List DecodedFact :=
  match firstBalancedRegion response.toList with
  | none => []
  | some region =>
    match parseJson region with
    | none => []
    | some j => (decodeExtracted j).getD []

/-! ## Context assembler (`buildContextFromMemory` in `server/memory.ts`) -/

/-- ASCII model of `String.prototype.toUpperCase`. -/
def jsToUpper (s : String) : String := String.mk (s.toList.map jsToUpperChar)

/-- One step of the `reduce` that groups facts by category: JavaScript
object keys enumerate in insertion order (for the non-integer-like key
strings used here), so the accumulator is an insertion-ordered
association list. -/
def groupInsert (acc : List (String × List MemoryFact)) (f : MemoryFact) :
    List (String × List MemoryFact) :=
  if acc.any (fun p => p.1 == f.category) then
    acc.map (fun p => if p.1 == f.category then (p.1, p.2 ++ [f]) else p)
  else acc ++ [(f.category, [f])]

/-- The `factsByCategory` accumulator of `buildContextFromMemory`. -/
def factsByCategory (facts : List MemoryFact) : List (String × List MemoryFact) :=
  facts.foldl groupInsert []

/-- Render one grouped category block: `[CATEGORY]` then `- key: value`
lines. -/
def renderGroup (p : String × List MemoryFact) : String :=
  "[" ++ jsToUpper p.1 ++ "]\n" ++
    String.intercalate "\n" (p.2.map (fun f => "- " ++ f.key ++ ": " ++ f.value))

/-- Render one recent message: `role: content`, content truncated to 200
characters with a `"..."` marker when it was longer. -/
def renderMessage (m : Message) : String :=
  m.role ++ ": " ++ m.content.take 200 ++
    (if 200 < m.content.length then "..." else "")

/-- `buildContextFromMemory` from `server/memory.ts`. -/
def buildContextFromMemory (facts : List MemoryFact)
    (summaries : List MemorySummary) (recentMessages : List Message) : String :=
  let sections : List String :=
    (if facts.isEmpty then [] else
      ["## User Information\n" ++
        String.intercalate "\n\n" ((factsByCategory facts).map renderGroup)]) ++
    (if summaries.isEmpty then [] else
      ["## Recent Context\n" ++
        String.intercalate "\n" ((summaries.take 3).map (fun s => "- " ++ s.content))]) ++
    (if recentMessages.isEmpty then [] else
      ["## Recent Conversation\n" ++
        String.intercalate "\n"
          ((recentMessages.drop (recentMessages.length - 6)).map renderMessage)])
  if sections.isEmpty then ""
  else
    "# Memory Context\nThe following information has been remembered about this user:\n\n" ++
      String.intercalate "\n\n" sections

/-- First-seen-order deduplication of a key list. -/
def dedupFirstSeen : List String → List String
  | [] => []
  | c :: cs => c :: (dedupFirstSeen cs).filter (fun d => d ≠ c)

/-- Stable grouping as the spec words it: the categories in first-seen
order, each with the facts of that category in their original order. -/
def specGroups (facts : List MemoryFact) : List (String × List MemoryFact) :=
  (dedupFirstSeen (facts.map (fun f => f.category))).map
    (fun c => (c, facts.filter (fun f => f.category == c)))

/-- The context assembler as the claim words it: a fixed header, then (in
fixed order) a "User Information" section grouping facts by category
under uppercased headers of exactly the categories present, a "Recent
Context" section of at most the first 3 summaries, and a "Recent
Conversation" section of the last 6 messages truncated to 200 characters
with a trailing ellipsis when truncated; the empty string when no section
was produced. -/
def specAssemble (facts : List MemoryFact) (summaries : List MemorySummary)
    (recentMessages : List Message) : String :=
  let sections : List String :=
    (if facts.isEmpty then [] else
      ["## User Information\n" ++
        String.intercalate "\n\n" ((specGroups facts).map renderGroup)]) ++
    (if summaries.isEmpty then [] else
      ["## Recent Context\n" ++
        String.intercalate "\n" ((summaries.take 3).map (fun s => "- " ++ s.content))]) ++
    (if recentMessages.isEmpty then [] else
      ["## Recent Conversation\n" ++
        String.intercalate "\n"
          ((recentMessages.drop (recentMessages.length - 6)).map renderMessage)])
  if sections.isEmpty then ""
  else
    "# Memory Context\nThe following information has been remembered about this user:\n\n" ++
      String.intercalate "\n\n" sections

/-- Whether the preprocessed text still contains a non-whitespace
character — equivalently (since `preprocess` keeps only word characters
and whitespace) whether any word character survives, i.e. whether the
embedder will see at least one non-empty token. -/
def hasTokenChars (l : List Char) : Bool :=
  (preprocess l).any (fun c => !(jsIsSpace c))

/-- Whether a character list starts with a whitespace character (the
situation in which JavaScript `split(/\s+/)` produces a leading empty
piece). -/
def startsWithSpace (l : List Char) : Bool :=
  match l with
  | [] => false
  | c :: _ => jsIsSpace c

/-! ## Lemmas -/

theorem length_insertDesc {α : Type} (x : α × ℝ) (l : List (α × ℝ)) :
    (insertDesc x l).length = l.length + 1 := by
  induction l with
  | nil => rfl
  | cons y ys ih =>
    rw [insertDesc]
    split
    · simp
    · simp only [List.length_cons, ih]

theorem length_sortByScoreDesc {α : Type} (l : List (α × ℝ)) :
    (sortByScoreDesc l).length = l.length := by
  induction l with
  | nil => rfl
  | cons x xs ih =>
    show (insertDesc x (sortByScoreDesc xs)).length = xs.length + 1
    rw [length_insertDesc, ih]

theorem normSq_nonneg (a : List ℝ) : 0 ≤ normSq a := by
  induction a with
  | nil => simp [normSq]
  | cons x xs ih =>
    simp only [normSq, List.map_cons, List.sum_cons] at *
    nlinarith [mul_self_nonneg x]

theorem normSq_cons (x : ℝ) (xs : List ℝ) :
    normSq (x :: xs) = x * x + normSq xs := by
  simp [normSq]

theorem dotProduct_cons (x y : ℝ) (xs ys : List ℝ) :
    dotProduct (x :: xs) (y :: ys) = x * y + dotProduct xs ys := by
  simp [dotProduct]

/-- Discrete Cauchy–Schwarz for list dot products, proved by induction on
the two lists (the `zipWith` truncates to the common prefix, and extra
squared entries only increase the right-hand side). -/
theorem dotProduct_sq_le (a b : List ℝ) :
    dotProduct a b ^ 2 ≤ normSq a * normSq b := by
  induction a generalizing b with
  | nil =>
    simp [dotProduct, normSq]
  | cons x xs ih =>
    cases b with
    | nil =>
      simp [dotProduct, normSq]
    | cons y ys =>
      have h := ih ys
      rw [dotProduct_cons, normSq_cons, normSq_cons]
      have hA := normSq_nonneg xs
      have hB := normSq_nonneg ys
      set A := normSq xs with hAdef
      set B := normSq ys with hBdef
      set d := dotProduct xs ys with hddef
      rcases eq_or_lt_of_le hA with hA0 | hApos
      · have hd0 : d = 0 := by
          have hle : d ^ 2 ≤ 0 := by rw [← hA0] at h; simpa using h
          have := sq_nonneg d
          have hsq : d ^ 2 = 0 := le_antisymm hle this
          exact pow_eq_zero_iff (by norm_num) |>.mp hsq
        rw [hd0, ← hA0]
        nlinarith [mul_nonneg (mul_self_nonneg x) hB]
      · nlinarith [sq_nonneg (x * d - y * A),
          mul_nonneg (le_of_lt hApos) (sub_nonneg.mpr h),
          mul_nonneg (sq_nonneg x) (sub_nonneg.mpr h)]

/-- The cosine similarity of any two vectors lies in `[-1, 1]`: shared
bound behind claims about the similarity engine's range. -/
theorem cosineSimilarity_mem_Icc (a b : List ℝ) :
    -1 ≤ cosineSimilarity a b ∧ cosineSimilarity a b ≤ 1 := by
  unfold cosineSimilarity
  by_cases hlen : a.length ≠ b.length
  · rw [if_pos hlen]; norm_num
  · rw [if_neg hlen]
    by_cases hz : normSq a = 0 ∨ normSq b = 0
    · rw [if_pos hz]; norm_num
    · rw [if_neg hz]
      push_neg at hz
      have hA : 0 < normSq a := lt_of_le_of_ne (normSq_nonneg a) (Ne.symm hz.1)
      have hB : 0 < normSq b := lt_of_le_of_ne (normSq_nonneg b) (Ne.symm hz.2)
      have hsA : 0 < Real.sqrt (normSq a) := Real.sqrt_pos.mpr hA
      have hsB : 0 < Real.sqrt (normSq b) := Real.sqrt_pos.mpr hB
      have hden : 0 < Real.sqrt (normSq a) * Real.sqrt (normSq b) :=
        mul_pos hsA hsB
      have hsq : (Real.sqrt (normSq a) * Real.sqrt (normSq b)) ^ 2 =
          normSq a * normSq b := by
        rw [mul_pow, Real.sq_sqrt (le_of_lt hA), Real.sq_sqrt (le_of_lt hB)]
      have habs : |dotProduct a b| ≤ Real.sqrt (normSq a) * Real.sqrt (normSq b) := by
        have h2 := dotProduct_sq_le a b
        rw [← hsq] at h2
        have h3 : Real.sqrt (dotProduct a b ^ 2) ≤
            Real.sqrt ((Real.sqrt (normSq a) * Real.sqrt (normSq b)) ^ 2) :=
          Real.sqrt_le_sqrt h2
        rwa [Real.sqrt_sq_eq_abs, Real.sqrt_sq (le_of_lt hden)] at h3
      rw [abs_le] at habs
      constructor
      · rw [le_div_iff₀ hden]; linarith [habs.1]
      · rw [div_le_one hden]; exact habs.2

/-- **C3.** For every memory store contents, query string and limit,
`findRelevantMemories` returns at most `limit` facts, at most `limit`
embeddings, and at most `⌈limit/2⌉` summaries (for a natural `limit`,
`Math.ceil(limit / 2) = (limit + 1) / 2` in integer division). -/
theorem findRelevantMemories_bounds (facts : List MemoryFact)
    (summaries : List MemorySummary) (embeddings : List MemoryEmbedding)
    (query : String) (limit : Nat) :
    (findRelevantMemories facts summaries embeddings query limit).facts.length ≤ limit ∧
    (findRelevantMemories facts summaries embeddings query limit).embeddings.length ≤ limit ∧
    (findRelevantMemories facts summaries embeddings query limit).summaries.length ≤
      (limit + 1) / 2 := by
  refine ⟨?_, ?_, ?_⟩ <;>
    simp only [findRelevantMemories, List.length_map, List.length_take,
      length_sortByScoreDesc] <;>
    omega

theorem mem_dedupFirstSeen (x : String) (l : List String) :
    x ∈ dedupFirstSeen l ↔ x ∈ l := by
  induction l with
  | nil => simp [dedupFirstSeen]
  | cons c cs ih =>
    simp only [dedupFirstSeen, List.mem_cons, List.mem_filter, ih]
    by_cases hx : x = c
    · simp [hx]
    · simp [hx]

theorem dedupFirstSeen_append_singleton (l : List String) (c : String) :
    dedupFirstSeen (l ++ [c]) =
      if c ∈ l then dedupFirstSeen l else dedupFirstSeen l ++ [c] := by
  induction l with
  | nil => simp [dedupFirstSeen]
  | cons a l ih =>
    rw [List.cons_append, dedupFirstSeen, ih]
    by_cases hc : c ∈ l
    · rw [if_pos hc, if_pos (List.mem_cons_of_mem a hc), dedupFirstSeen]
    · rw [if_neg hc]
      by_cases hca : c = a
      · rw [if_pos (by simp [hca] : c ∈ a :: l), List.filter_append,
          dedupFirstSeen]
        simp [hca]
      · rw [if_neg (by simp [hca, hc] : ¬ c ∈ a :: l), List.filter_append,
          dedupFirstSeen]
        simp only [List.filter_cons, List.filter_nil, List.cons_append]
        rw [if_pos (by simpa using hca)]

theorem specGroups_any_key (pre : List MemoryFact) (k : String) :
    (specGroups pre).any (fun p => p.1 == k) = true ↔
      k ∈ pre.map (fun g => g.category) := by
  rw [specGroups, List.any_eq_true]
  constructor
  · rintro ⟨p, hp, hpk⟩
    obtain ⟨c, hc, rfl⟩ := List.mem_map.mp hp
    have : c = k := by simpa using hpk
    exact (mem_dedupFirstSeen k _).mp (this ▸ hc)
  · intro hk
    exact ⟨(k, List.filter (fun f => f.category == k) pre),
      List.mem_map.mpr ⟨k, (mem_dedupFirstSeen k _).mpr hk, rfl⟩, by simp⟩

theorem specGroups_append (pre : List MemoryFact) (f : MemoryFact) :
    specGroups (pre ++ [f]) = groupInsert (specGroups pre) f := by
  by_cases hk : f.category ∈ pre.map (fun g => g.category)
  · rw [groupInsert, if_pos ((specGroups_any_key pre f.category).mpr hk)]
    rw [specGroups, List.map_append]
    simp only [List.map_cons, List.map_nil]
    rw [dedupFirstSeen_append_singleton, if_pos hk]
    rw [specGroups, List.map_map]
    refine List.map_congr_left (fun c hc => ?_)
    simp only [Function.comp]
    by_cases hck : c = f.category
    · rw [if_pos (by simp [hck]), List.filter_append]
      simp [hck]
    · rw [if_neg (by simp [hck]), List.filter_append]
      have hbeq : (f.category == c) = false := by
        rw [beq_eq_false_iff_ne]
        exact fun h => hck h.symm
      simp [List.filter_cons, hbeq]
  · rw [groupInsert, if_neg (by
      intro hany
      exact hk ((specGroups_any_key pre f.category).mp hany))]
    rw [specGroups, List.map_append]
    simp only [List.map_cons, List.map_nil]
    rw [dedupFirstSeen_append_singleton, if_neg hk]
    rw [List.map_append, specGroups]
    congr 1
    · refine List.map_congr_left (fun c hc => ?_)
      have hck : c ≠ f.category := by
        intro h
        exact hk (h ▸ (mem_dedupFirstSeen c _).mp hc)
      rw [List.filter_append]
      have hbeq : (f.category == c) = false := by
        rw [beq_eq_false_iff_ne]
        exact fun h => hck h.symm
      simp [List.filter_cons, hbeq]
    · simp only [List.map_cons, List.map_nil, List.filter_append]
      have h1 : List.filter (fun g => g.category == f.category) pre = [] := by
        rw [List.filter_eq_nil_iff]
        intro g hg hbeq
        exact hk (List.mem_map.mpr ⟨g, hg, by simpa using hbeq⟩)
      have h2 : List.filter (fun g => g.category == f.category) [f] = [f] := by
        simp [List.filter_cons]
      rw [h1, h2, List.nil_append]

theorem factsByCategory_eq_specGroups (facts : List MemoryFact) :
    factsByCategory facts = specGroups facts := by
  induction facts using List.reverseRecOn with
  | nil => rfl
  | append_singleton pre f ih =>
    rw [factsByCategory, List.foldl_append]
    show groupInsert (pre.foldl groupInsert []) f = _
    rw [show pre.foldl groupInsert [] = factsByCategory pre from rfl, ih]
    exact (specGroups_append pre f).symm

/-- **C8.** The context assembler returns the empty string when facts,
summaries and recent messages are all empty; in general it equals the
spec's rendering: a fixed header line, then (in fixed order) a "User
Information" section grouping facts by category under uppercased headers
of exactly the categories present (first-seen order), a "Recent Context"
section of at most the first 3 summaries, and a "Recent Conversation"
section of the last 6 messages, each message's content truncated to 200
characters with a trailing ellipsis when truncated. -/
theorem buildContextFromMemory_spec (facts : List MemoryFact)
    (summaries : List MemorySummary) (recentMessages : List Message) :
    buildContextFromMemory [] [] [] = "" ∧
    buildContextFromMemory facts summaries recentMessages =
      specAssemble facts summaries recentMessages := by
  refine ⟨rfl, ?_⟩
  simp only [buildContextFromMemory, specAssemble, factsByCategory_eq_specGroups]

theorem length_bump (v : List ℚ) (idx : Nat) (q : ℚ) :
    (bump v idx q).length = v.length := by
  simp [bump]

theorem length_accumWordFrom (i : Nat) (w : List Char) :
    ∀ (j : Nat) (v : List ℚ), (accumWordFrom i j w v).length = v.length := by
  induction w with
  | nil => intro j v; rfl
  | cons c cs ih =>
    intro j v
    rw [accumWordFrom, ih, length_bump]

theorem length_accumWordsFrom (ws : List (List Char)) :
    ∀ (i : Nat) (v : List ℚ), (accumWordsFrom i ws v).length = v.length := by
  induction ws with
  | nil => intro i v; rfl
  | cons w ws ih =>
    intro i v
    rw [accumWordsFrom, ih, length_accumWordFrom]

theorem length_rawVector (text : List Char) : (rawVector text).length = 256 := by
  rw [rawVector, length_accumWordsFrom, List.length_replicate]

theorem bump_cons_succ (x : ℚ) (xs : List ℚ) (n : Nat) (q : ℚ) :
    bump (x :: xs) (n + 1) q = x :: bump xs n q := by
  simp [bump]

theorem bump_cons_zero (x : ℚ) (xs : List ℚ) (q : ℚ) :
    bump (x :: xs) 0 q = (x + q) :: xs := by
  simp [bump]

theorem sum_bump (v : List ℚ) (idx : Nat) (q : ℚ) (h : idx < v.length) :
    (bump v idx q).sum = v.sum + q := by
  induction v generalizing idx with
  | nil => simp at h
  | cons x xs ih =>
    cases idx with
    | zero => rw [bump_cons_zero]; simp; ring
    | succ n =>
      rw [bump_cons_succ, List.sum_cons, List.sum_cons,
        ih n (by simpa using Nat.lt_of_succ_lt_succ h)]
      ring

theorem getD_nonneg (v : List ℚ) (hv : ∀ x ∈ v, 0 ≤ x) (k : Nat) :
    0 ≤ v.getD k 0 := by
  induction v generalizing k with
  | nil => simp
  | cons x xs ih =>
    cases k with
    | zero => simpa using hv x (List.mem_cons_self x xs)
    | succ n =>
      simp only [List.getD_cons_succ]
      exact ih (fun y hy => hv y (List.mem_cons_of_mem x hy)) n

theorem nonneg_bump (v : List ℚ) (idx : Nat) (q : ℚ)
    (hv : ∀ x ∈ v, 0 ≤ x) (hq : 0 ≤ q) : ∀ x ∈ bump v idx q, 0 ≤ x := by
  intro x hx
  rcases List.mem_or_eq_of_mem_set hx with h | h
  · exact hv x h
  · rw [h]
    exact add_nonneg (getD_nonneg v hv idx) hq

theorem nonneg_accumWordFrom (i : Nat) (w : List Char) :
    ∀ (j : Nat) (v : List ℚ), (∀ x ∈ v, 0 ≤ x) →
      ∀ x ∈ accumWordFrom i j w v, 0 ≤ x := by
  induction w with
  | nil => intro j v hv; exact hv
  | cons c cs ih =>
    intro j v hv
    rw [accumWordFrom]
    exact ih (j + 1) _ (nonneg_bump _ _ _ hv (by positivity))

theorem nonneg_accumWordsFrom (ws : List (List Char)) :
    ∀ (i : Nat) (v : List ℚ), (∀ x ∈ v, 0 ≤ x) →
      ∀ x ∈ accumWordsFrom i ws v, 0 ≤ x := by
  induction ws with
  | nil => intro i v hv; exact hv
  | cons w ws ih =>
    intro i v hv
    rw [accumWordsFrom]
    exact ih (i + 1) _ (nonneg_accumWordFrom i w 0 v hv)

theorem nonneg_rawVector (text : List Char) : ∀ x ∈ rawVector text, 0 ≤ x := by
  rw [rawVector]
  refine nonneg_accumWordsFrom _ _ _ (fun x hx => ?_)
  rw [List.eq_of_mem_replicate hx]

theorem sum_accumWordFrom (i : Nat) (w : List Char) :
    ∀ (j : Nat) (v : List ℚ), v.length = 256 →
      (accumWordFrom i j w v).sum = v.sum + w.length * (1 / ((i : ℚ) + 1)) := by
  induction w with
  | nil => intro j v _; simp [accumWordFrom]
  | cons c cs ih =>
    intro j v hlen
    rw [accumWordFrom, ih (j + 1) _ (by rw [length_bump]; exact hlen),
      sum_bump _ _ _ (by rw [hlen]; exact Nat.mod_lt _ (by norm_num))]
    simp only [List.length_cons]
    push_cast
    ring

theorem sum_accumWordsFrom_ge (ws : List (List Char)) :
    ∀ (i : Nat) (v : List ℚ), v.length = 256 →
      v.sum ≤ (accumWordsFrom i ws v).sum := by
  induction ws with
  | nil => intro i v _; exact le_refl _
  | cons w ws ih =>
    intro i v hlen
    rw [accumWordsFrom]
    refine le_trans ?_ (ih (i + 1) _ (by rw [length_accumWordFrom]; exact hlen))
    rw [sum_accumWordFrom i w 0 v hlen]
    have : (0 : ℚ) ≤ w.length * (1 / ((i : ℚ) + 1)) := by positivity
    linarith

theorem sum_accumWordsFrom_pos (ws : List (List Char)) :
    ∀ (i : Nat) (v : List ℚ), v.length = 256 → (∃ w ∈ ws, w ≠ []) →
      v.sum < (accumWordsFrom i ws v).sum := by
  induction ws with
  | nil => intro i v _ hw; simp at hw
  | cons w ws ih =>
    intro i v hlen hw
    rw [accumWordsFrom]
    by_cases hwe : w = []
    · subst hwe
      rcases hw with ⟨w', hw', hne⟩
      rcases List.mem_cons.mp hw' with rfl | hw'
      · exact absurd rfl hne
      · exact ih (i + 1) _ (by simp [length_accumWordFrom, hlen]) ⟨w', hw', hne⟩
    · refine lt_of_lt_of_le ?_
        (sum_accumWordsFrom_ge ws (i + 1) _
          (by rw [length_accumWordFrom]; exact hlen))
      rw [sum_accumWordFrom i w 0 v hlen]
      have h1 : (1 : ℚ) ≤ w.length := by
        have : 1 ≤ w.length := Nat.one_le_iff_ne_zero.mpr
          (fun h => hwe (List.length_eq_zero.mp h))
        exact_mod_cast this
      have h2 : (0 : ℚ) < 1 / ((i : ℚ) + 1) := by positivity
      nlinarith

theorem sumSq_cons (x : ℚ) (xs : List ℚ) : sumSq (x :: xs) = x * x + sumSq xs := by
  simp [sumSq]

theorem sumSq_nonnegQ (v : List ℚ) : 0 ≤ sumSq v := by
  induction v with
  | nil => simp [sumSq]
  | cons x xs ih =>
    rw [sumSq_cons]
    nlinarith [mul_self_nonneg x]

theorem sumSq_pos_of_sum_pos (v : List ℚ) (hv : ∀ x ∈ v, 0 ≤ x)
    (hs : 0 < v.sum) : 0 < sumSq v := by
  induction v with
  | nil => simp at hs
  | cons x xs ih =>
    have hx : 0 ≤ x := hv x (List.mem_cons_self x xs)
    rw [sumSq_cons]
    rcases lt_or_eq_of_le hx with hxpos | hxzero
    · nlinarith [sumSq_nonnegQ xs]
    · rw [List.sum_cons, ← hxzero, zero_add] at hs
      have := ih (fun y hy => hv y (List.mem_cons_of_mem x hy)) hs
      nlinarith [mul_self_nonneg x]

theorem jsSplitAux_exists_token (l : List Char) :
    ∀ (acc : List Char) (inRun : Bool),
      (l.any (fun c => !(jsIsSpace c)) = true ∨ (inRun = false ∧ acc ≠ [])) →
      ∃ w ∈ jsSplitAux l acc inRun, w ≠ [] := by
  induction l with
  | nil =>
    intro acc inRun h
    rcases h with h | ⟨_, hacc⟩
    · simp at h
    · exact ⟨acc.reverse, by simp [jsSplitAux], by simpa using hacc⟩
  | cons c cs ih =>
    intro acc inRun h
    by_cases hc : jsIsSpace c
    · have hany : cs.any (fun c => !(jsIsSpace c)) = true ∨ (inRun = false ∧ acc ≠ []) := by
        rcases h with h | h
        · left; simpa [hc] using h
        · right; exact h
      rw [jsSplitAux, if_pos hc]
      cases inRun with
      | true =>
        rcases hany with hany | ⟨hfalse, _⟩
        · exact ih [] true (Or.inl hany)
        · exact absurd hfalse (by simp)
      | false =>
        by_cases hacc : acc = []
        · rcases hany with hany | ⟨_, hacc'⟩
          · obtain ⟨w, hw, hne⟩ := ih [] true (Or.inl hany)
            exact ⟨w, List.mem_cons_of_mem _ hw, hne⟩
          · exact absurd hacc hacc'
        · exact ⟨acc.reverse, List.mem_cons_self _ _, by simpa using hacc⟩
    · rw [jsSplitAux, if_neg hc]
      exact ih (c :: acc) false (Or.inr ⟨rfl, List.cons_ne_nil c acc⟩)

theorem jsSplitAux_all_empty (l : List Char) :
    ∀ (inRun : Bool), (l.any (fun c => !(jsIsSpace c)) = false) →
      ∀ w ∈ jsSplitAux l [] inRun, w = [] := by
  induction l with
  | nil =>
    intro inRun _ w hw
    simpa [jsSplitAux] using hw
  | cons c cs ih =>
    intro inRun hany w hw
    have hc : jsIsSpace c = true := by
      by_contra hc
      simp [List.any_cons, hc] at hany
    have hcs : cs.any (fun c => !(jsIsSpace c)) = false := by
      simpa [List.any_cons, hc] using hany
    rw [jsSplitAux, if_pos hc] at hw
    cases inRun with
    | true => exact ih true hcs w hw
    | false =>
      rcases List.mem_cons.mp hw with rfl | hw
    
      · rfl
      · exact ih true hcs w hw

theorem accumWordsFrom_all_empty (ws : List (List Char)) :
    ∀ (i : Nat) (v : List ℚ), (∀ w ∈ ws, w = []) → accumWordsFrom i ws v = v := by
  induction ws with
  | nil => intro i v _; rfl
  | cons w ws ih =>
    intro i v h
    rw [accumWordsFrom, h w (List.mem_cons_self w ws)]
    exact ih (i + 1) v (fun w' hw' => h w' (List.mem_cons_of_mem w hw'))

theorem accumWordsFrom_append_empty (ws : List (List Char)) :
    ∀ (i : Nat) (v : List ℚ), accumWordsFrom i (ws ++ [[]]) v = accumWordsFrom i ws v := by
  induction ws with
  | nil => intro i v; rfl
  | cons w ws ih =>
    intro i v
    rw [List.cons_append, accumWordsFrom, accumWordsFrom, ih]

theorem jsSplitAux_vs_tokensAux (l : List Char) :
    (∀ acc : List Char, acc ≠ [] →
      jsSplitAux l acc false = tokensAux l acc ∨
      jsSplitAux l acc false = tokensAux l acc ++ [[]]) ∧
    (jsSplitAux l [] true = tokensAux l [] ∨
      jsSplitAux l [] true = tokensAux l [] ++ [[]]) := by
  induction l with
  | nil =>
    constructor
    · intro acc hacc
      left
      have hne : acc.isEmpty = false := by
        cases acc with
        | nil => exact absurd rfl hacc
        | cons a as => rfl
      simp [jsSplitAux, tokensAux, hne]
    · right
      simp [jsSplitAux, tokensAux]
  | cons c cs ih =>
    constructor
    · intro acc hacc
      have hne : acc.isEmpty = false := by
        cases acc with
        | nil => exact absurd rfl hacc
        | cons a as => rfl
      by_cases hc : jsIsSpace c
      · rcases ih.2 with h | h
        · left
          simp [jsSplitAux, tokensAux, hc, hne, h]
        · right
          simp [jsSplitAux, tokensAux, hc, hne, h]
      · simp only [jsSplitAux, tokensAux, hc, Bool.false_eq_true, if_false]
        exact ih.1 (c :: acc) (List.cons_ne_nil c acc)
    · by_cases hc : jsIsSpace c
      · simp only [jsSplitAux, tokensAux, hc, if_true, List.isEmpty_nil, if_pos]
        exact ih.2
      · simp only [jsSplitAux, tokensAux, hc, Bool.false_eq_true, if_false]
        exact ih.1 [c] (List.cons_ne_nil c [])

theorem rawVector_eq_ref_of_no_leading_space (text : List Char)
    (h : ∀ c cs, preprocess text = c :: cs → jsIsSpace c = false) :
    rawVector text = rawVectorRef text := by
  rw [rawVector, rawVectorRef, jsSplitWS, tokensWS]
  cases hpp : preprocess text with
  | nil => rfl
  | cons c cs =>
    have hc : jsIsSpace c = false := h c cs hpp
    rw [jsSplitAux, if_neg (by simp [hc]), tokensAux, if_neg (by simp [hc])]
    rcases (jsSplitAux_vs_tokensAux cs).1 [c] (List.cons_ne_nil c []) with he | he
    · rw [he]
    · rw [he, accumWordsFrom_append_empty]

theorem getD_replicate_zero (n k : Nat) : (List.replicate n (0 : ℚ)).getD k 0 = 0 := by
  induction n generalizing k with
  | zero => simp
  | succ m ih =>
    cases k with
    | zero => simp [List.replicate_succ]
    | succ kk =>
      rw [List.replicate_succ, List.getD_cons_succ]
      exact ih kk

theorem getD_set_ne (v : List ℚ) (i k : Nat) (a : ℚ) (h : i ≠ k) :
    (v.set i a).getD k 0 = v.getD k 0 := by
  induction v generalizing i k with
  | nil => simp
  | cons x xs ih =>
    cases i with
    | zero =>
      cases k with
      | zero => exact absurd rfl h
      | succ kk => simp [List.set]
    | succ ii =>
      cases k with
      | zero => simp [List.set]
      | succ kk =>
        rw [List.set_cons_succ, List.getD_cons_succ, List.getD_cons_succ]
        exact ih ii kk (fun he => h (by rw [he]))

theorem getD_set_self (v : List ℚ) (i : Nat) (a : ℚ) (h : i < v.length) :
    (v.set i a).getD i 0 = a := by
  induction v generalizing i with
  | nil => simp at h
  | cons x xs ih =>
    cases i with
    | zero => simp [List.set]
    | succ ii =>
      rw [List.set_cons_succ, List.getD_cons_succ]
      exact ih ii (by simpa using Nat.lt_of_succ_lt_succ h)

theorem sumSq_replicate_zero (n : Nat) : sumSq (List.replicate n (0 : ℚ)) = 0 := by
  induction n with
  | zero => simp [sumSq]
  | succ m ih => rw [List.replicate_succ, sumSq_cons, ih]; ring

theorem sumSq_set_replicate (n i : Nat) (x : ℚ) (h : i < n) :
    sumSq ((List.replicate n (0 : ℚ)).set i x) = x * x := by
  induction n generalizing i with
  | zero => simp at h
  | succ m ih =>
    cases i with
    | zero =>
      rw [List.replicate_succ, List.set_cons_zero, sumSq_cons, sumSq_replicate_zero]
      ring
    | succ ii =>
      rw [List.replicate_succ, List.set_cons_succ, sumSq_cons,
        ih ii (Nat.lt_of_succ_lt_succ h)]
      ring

theorem getD_map_zero (f : ℚ → ℝ) (hf : f 0 = 0) (v : List ℚ) (k : Nat) :
    (v.map f).getD k 0 = f (v.getD k 0) := by
  induction v generalizing k with
  | nil => simp [hf]
  | cons x xs ih =>
    cases k with
    | zero => simp
    | succ kk =>
      rw [List.map_cons, List.getD_cons_succ, List.getD_cons_succ]
      exact ih kk

theorem getD_l2normalize_zero (v : List ℚ) (k : Nat) (h : v.getD k 0 = 0) :
    (l2normalize v).getD k 0 = 0 := by
  rw [l2normalize]
  split
  · rw [getD_map_zero _ (by simp) v k, h]
    simp
  · rw [getD_map_zero _ (by simp) v k, h]
    simp

theorem normSq_map_div (v : List ℚ) (c : ℝ) :
    normSq (v.map (fun q : ℚ => (Rat.cast q : ℝ) / c)) = ((sumSq v : ℚ) : ℝ) / c ^ 2 := by
  induction v with
  | nil => simp [normSq, sumSq]
  | cons x xs ih =>
    rw [List.map_cons, normSq_cons, ih, sumSq_cons]
    push_cast
    rw [div_mul_div_comm, ← pow_two, add_div,
      show c * c = c ^ 2 from (pow_two c).symm]

theorem normSq_l2normalize (v : List ℚ) (h : 0 < sumSq v) :
    normSq (l2normalize v) = 1 := by
  rw [l2normalize, if_pos h, normSq_map_div]
  have hS : (0 : ℝ) < ((sumSq v : ℚ) : ℝ) := by exact_mod_cast h
  rw [Real.sq_sqrt (le_of_lt hS), div_self (ne_of_gt hS)]

theorem normSq_replicate_zeroR (n : Nat) : normSq (List.replicate n (0 : ℝ)) = 0 := by
  induction n with
  | zero => simp [normSq]
  | succ m ih => rw [List.replicate_succ, normSq_cons, ih]; ring

theorem l2normalize_replicate_zero :
    l2normalize (List.replicate 256 (0 : ℚ)) = List.replicate 256 (0 : ℝ) := by
  rw [l2normalize, if_neg (by rw [sumSq_replicate_zero]; exact lt_irrefl 0)]
  rw [List.map_replicate]
  norm_num

theorem nonneg_simpleEmbedding (text : List Char) :
    ∀ x ∈ simpleEmbedding text, 0 ≤ x := by
  rw [simpleEmbedding, l2normalize]
  split <;> intro x hx <;> obtain ⟨q, hq, rfl⟩ := List.mem_map.mp hx
  · exact div_nonneg (by exact_mod_cast nonneg_rawVector text q hq)
      (Real.sqrt_nonneg _)
  · exact_mod_cast nonneg_rawVector text q hq

theorem dotProduct_nonneg (a : List ℝ) :
    ∀ (b : List ℝ), (∀ x ∈ a, 0 ≤ x) → (∀ x ∈ b, 0 ≤ x) → 0 ≤ dotProduct a b := by
  induction a with
  | nil => intro b _ _; simp [dotProduct]
  | cons x xs ih =>
    intro b ha hb
    cases b with
    | nil => simp [dotProduct]
    | cons y ys =>
      rw [dotProduct_cons]
      have hx := ha x (List.mem_cons_self x xs)
      have hy := hb y (List.mem_cons_self y ys)
      have := ih ys (fun z hz => ha z (List.mem_cons_of_mem x hz))
        (fun z hz => hb z (List.mem_cons_of_mem y hz))
      nlinarith

theorem cosineSimilarity_nonneg (a b : List ℝ)
    (ha : ∀ x ∈ a, 0 ≤ x) (hb : ∀ x ∈ b, 0 ≤ x) : 0 ≤ cosineSimilarity a b := by
  rw [cosineSimilarity]
  split
  · exact le_refl 0
  · split
    · exact le_refl 0
    · exact div_nonneg (dotProduct_nonneg a b ha hb)
        (mul_nonneg (Real.sqrt_nonneg _) (Real.sqrt_nonneg _))

theorem dotProduct_self (v : List ℝ) : dotProduct v v = normSq v := by
  induction v with
  | nil => simp [dotProduct, normSq]
  | cons x xs ih => rw [dotProduct_cons, normSq_cons, ih]

theorem normSq_map_neg (v : List ℝ) : normSq (v.map (fun x => -x)) = normSq v := by
  induction v with
  | nil => simp [normSq]
  | cons x xs ih =>
    rw [List.map_cons, normSq_cons, normSq_cons, ih]
    ring_nf

theorem dotProduct_map_neg (v : List ℝ) :
    dotProduct v (v.map (fun x => -x)) = -normSq v := by
  induction v with
  | nil => simp [dotProduct, normSq]
  | cons x xs ih =>
    rw [List.map_cons, dotProduct_cons, normSq_cons, ih]
    ring

/-- **C2.** `cosineSimilarity` returns exactly `0` when the lengths
differ or either (squared) norm is zero, always returns a value in
`[-1, 1]` (so no input raises), and for every vector of non-zero norm,
`cosineSimilarity v v = 1` and `cosineSimilarity v (-v) = -1` (exactly,
in the real-number model of JavaScript floats). -/
theorem cosineSimilarity_contract (a b v : List ℝ) (hv : normSq v ≠ 0) :
    (a.length ≠ b.length → cosineSimilarity a b = 0) ∧
    (normSq a = 0 ∨ normSq b = 0 → cosineSimilarity a b = 0) ∧
    (-1 ≤ cosineSimilarity a b ∧ cosineSimilarity a b ≤ 1) ∧
    cosineSimilarity v v = 1 ∧
    cosineSimilarity v (v.map (fun x => -x)) = -1 := by
  refine ⟨?_, ?_, cosineSimilarity_mem_Icc a b, ?_, ?_⟩
  · intro h
    rw [cosineSimilarity, if_pos h]
  · intro h
    rw [cosineSimilarity]
    by_cases hlen : a.length ≠ b.length
    · rw [if_pos hlen]
    · rw [if_neg hlen, if_pos h]
  · rw [cosineSimilarity, if_neg (by simp), if_neg (by simp [hv]),
      dotProduct_self, Real.mul_self_sqrt (normSq_nonneg v), div_self hv]
  · rw [cosineSimilarity, if_neg (by simp), if_neg (by simp [hv, normSq_map_neg]),
      dotProduct_map_neg, normSq_map_neg,
      Real.mul_self_sqrt (normSq_nonneg v), neg_div, div_self hv]

/-- Witness for `cosineSimilarity_contract` at `a = [1, 2]`, `b = [3]`,
`v = [1]`. -/
theorem cosineSimilarity_contract_witness :
    normSq [(1 : ℝ)] ≠ 0 ∧
    ((([1, 2] : List ℝ).length ≠ ([3] : List ℝ).length →
        cosineSimilarity [1, 2] [3] = 0) ∧
      (normSq [(1 : ℝ), 2] = 0 ∨ normSq [(3 : ℝ)] = 0 →
        cosineSimilarity [1, 2] [3] = 0) ∧
      (-1 ≤ cosineSimilarity [(1 : ℝ), 2] [(3 : ℝ)] ∧
        cosineSimilarity [(1 : ℝ), 2] [(3 : ℝ)] ≤ 1) ∧
      cosineSimilarity [(1 : ℝ)] [(1 : ℝ)] = 1 ∧
      cosineSimilarity [(1 : ℝ)] ([(1 : ℝ)].map (fun x => -x)) = -1) := by
  have hv : normSq [(1 : ℝ)] ≠ 0 := by norm_num [normSq]
  exact ⟨hv, cosineSimilarity_contract [1, 2] [3] [1] hv⟩

theorem l2normalize_single_entry_one (n i : Nat) (q : ℚ) (h : i < n)
    (hq : 0 < q) :
    (l2normalize ((List.replicate n (0 : ℚ)).set i q)).getD i 0 = 1 := by
  have hS : sumSq ((List.replicate n (0 : ℚ)).set i q) = q * q :=
    sumSq_set_replicate n i q h
  rw [l2normalize, if_pos (by rw [hS]; positivity)]
  rw [getD_map_zero _ (by simp) _ i,
    getD_set_self _ _ _ (by rw [List.length_replicate]; exact h), hS]
  have hqR : (0 : ℝ) < (q : ℝ) := by exact_mod_cast hq
  rw [show (Rat.cast (q * q) : ℝ) = (q : ℝ) * (q : ℝ) by push_cast; ring,
    Real.sqrt_mul_self (le_of_lt hqR), div_self (ne_of_gt hqR)]

/-- **C4 (amended).** `simpleEmbedding` computes the spec's reference
algorithm whenever the preprocessed text does not start with whitespace
(then JavaScript `split(/\s+/)` produces no leading empty token and the
two tokenizations drive the accumulator identically; a trailing empty
token contributes nothing). -/
theorem simpleEmbedding_eq_reference (text : List Char)
    (h : startsWithSpace (preprocess text) = false) :
    simpleEmbedding text = referenceEmbedding text := by
  have h' : ∀ c cs, preprocess text = c :: cs → jsIsSpace c = false := by
    intro c cs hcc
    rw [hcc] at h
    exact h
  rw [simpleEmbedding, referenceEmbedding,
    rawVector_eq_ref_of_no_leading_space text h']

/-- Witness for `simpleEmbedding_eq_reference` at the text `"ab"`. -/
theorem simpleEmbedding_eq_reference_witness :
    startsWithSpace (preprocess "ab".toList) = false ∧
    simpleEmbedding "ab".toList = referenceEmbedding "ab".toList :=
  ⟨rfl, simpleEmbedding_eq_reference "ab".toList rfl⟩

/-- **C4 (counterexample).** On the text `" a"` (leading whitespace), the
source embedding differs from the spec's reference algorithm: JavaScript
`split(/\s+/)` yields a leading empty token, so the only real token sits
at position `i = 1` and lands in bucket 98 with weight 1/2, while the
reference algorithm puts it at position `i = 0`, bucket 97, weight 1.
The two vectors already differ at index 97 (0 versus 1). -/
theorem simpleEmbedding_ne_reference_counterexample :
    simpleEmbedding " a".toList ≠ referenceEmbedding " a".toList := by
  have hcode : (simpleEmbedding " a".toList).getD 97 0 = 0 := by
    rw [simpleEmbedding]
    apply getD_l2normalize_zero
    rw [rawVector, show jsSplitWS (preprocess " a".toList) = [[], ['a']] from by decide]
    rw [accumWordsFrom, accumWordFrom, accumWordsFrom, accumWordFrom,
      accumWordFrom, accumWordsFrom]
    rw [bump, getD_set_ne _ _ _ _ (by decide), getD_replicate_zero]
  have href : (referenceEmbedding " a".toList).getD 97 0 = 1 := by
    rw [referenceEmbedding]
    rw [rawVectorRef, show tokensWS (preprocess " a".toList) = [['a']] from by decide]
    rw [accumWordsFrom, accumWordFrom, accumWordFrom, accumWordsFrom]
    rw [bump, getD_replicate_zero, zero_add]
    rw [show ('a'.toNat + 0 + 0) % 256 = 97 from by decide]
    exact l2normalize_single_entry_one 256 97 _ (by norm_num) (by positivity)
  intro heq
  rw [heq, href] at hcode
  norm_num at hcode

/-- **C5 (amended).** The embedder is deterministic; the Euclidean norm
of `simpleEmbedding s` is exactly 1 (in the real model) whenever the
preprocessed text contains at least one non-whitespace character
(equivalently, at least one token survives); and the embedding is the
all-zero vector whenever it contains none — including every non-empty `s`
made only of punctuation and/or whitespace. -/
theorem simpleEmbedding_properties (text : List Char) :
    simpleEmbedding text = simpleEmbedding text ∧
    (hasTokenChars text = true →
      Real.sqrt (normSq (simpleEmbedding text)) = 1) ∧
    (hasTokenChars text = false →
      simpleEmbedding text = List.replicate 256 0) := by
  refine ⟨rfl, ?_, ?_⟩
  · intro h
    rw [hasTokenChars] at h
    have hex : ∃ w ∈ jsSplitWS (preprocess text), w ≠ [] :=
      jsSplitAux_exists_token _ [] false (Or.inl h)
    have hsum : 0 < (rawVector text).sum := by
      have h0 := sum_accumWordsFrom_pos (jsSplitWS (preprocess text)) 0
        (List.replicate 256 0) (by rw [List.length_replicate]) hex
      rw [rawVector]
      calc (0 : ℚ) = (List.replicate 256 (0 : ℚ)).sum := by
            rw [List.sum_replicate, smul_zero]
        _ < _ := h0
    have hpos : 0 < sumSq (rawVector text) :=
      sumSq_pos_of_sum_pos _ (nonneg_rawVector text) hsum
    rw [simpleEmbedding, normSq_l2normalize _ hpos, Real.sqrt_one]
  · intro h
    rw [hasTokenChars] at h
    have hall : ∀ w ∈ jsSplitWS (preprocess text), w = [] :=
      jsSplitAux_all_empty _ false h
    rw [simpleEmbedding, rawVector, accumWordsFrom_all_empty _ _ _ hall,
      l2normalize_replicate_zero]

/-- Witness for `simpleEmbedding_properties`: `"hello"` has a token and
unit norm; `"!?"` has none and embeds to the zero vector. -/
theorem simpleEmbedding_properties_witness :
    (hasTokenChars "hello".toList = true ∧
      Real.sqrt (normSq (simpleEmbedding "hello".toList)) = 1) ∧
    (hasTokenChars "!?".toList = false ∧
      simpleEmbedding "!?".toList = List.replicate 256 0) :=
  ⟨⟨rfl, (simpleEmbedding_properties "hello".toList).2.1 rfl⟩,
   ⟨rfl, (simpleEmbedding_properties "!?".toList).2.2 rfl⟩⟩

/-- **C5 (counterexample).** The claim "the norm is 1 whenever `s` is
non-empty" fails: `"!"` is a non-empty string, yet its embedding is the
all-zero vector (the punctuation strip leaves nothing), whose Euclidean
norm is 0, not 1. -/
theorem simpleEmbedding_norm_counterexample :
    "!".toList ≠ [] ∧ Real.sqrt (normSq (simpleEmbedding "!".toList)) ≠ 1 := by
  constructor
  · decide
  · rw [simpleEmbedding, rawVector,
      show jsSplitWS (preprocess "!".toList) = [[]] from by decide]
    rw [accumWordsFrom, accumWordFrom, accumWordsFrom,
      l2normalize_replicate_zero, normSq_replicate_zeroR, Real.sqrt_zero]
    norm_num

/-- **C10.** Every component of a `simpleEmbedding` vector is
non-negative, so the cosine similarity of two embedded texts always lies
in `[0, 1]` — the negative half of the advertised `[-1, 1]` range is
never used when scoring embedded memories. -/
theorem embedded_cosine_in_unit_interval (s t : List Char) :
    0 ≤ cosineSimilarity (simpleEmbedding s) (simpleEmbedding t) ∧
    cosineSimilarity (simpleEmbedding s) (simpleEmbedding t) ≤ 1 :=
  ⟨cosineSimilarity_nonneg _ _ (nonneg_simpleEmbedding s)
      (nonneg_simpleEmbedding t),
   (cosineSimilarity_mem_Icc _ _).2⟩

/-- **C1 (counterexample).** `storeExtractedMemory` performs no clamping:
a candidate whose extractor reported confidence `3/2` is handed to the
store with confidence `3/2`, which is outside `[0, 1]`. -/
theorem storeExtractedMemory_no_clamp_counterexample :
    (storeExtractedMemory "u" ⟨[⟨"personal", "k", "v", some (3 / 2)⟩]⟩
        none).map storedConfidence = [3 / 2] ∧
    ¬ ((3 : ℚ) / 2 ≤ 1) := by
  refine ⟨rfl, by norm_num⟩

/-- **C1 (amended).** `storeExtractedMemory` copies each candidate's
confidence into the inserted row unchanged (no clamping into `[0, 1]`
happens anywhere on the storage path); a candidate with no confidence is
inserted without one, and such a row receives `1.0` from the
`real("confidence").default(1.0)` column default of `shared/schema.ts`. -/
theorem storeExtractedMemory_confidence (userId : String)
    (extracted : ExtractedMemory) (mid : Option String) :
    (storeExtractedMemory userId extracted mid).map (fun r => r.confidence) =
      extracted.facts.map (fun f => f.confidence) ∧
    ∀ r ∈ storeExtractedMemory userId extracted mid,
      r.confidence = none → storedConfidence r = 1 := by
  constructor
  · rw [storeExtractedMemory, List.map_map]
    rfl
  · intro r _ hr
    rw [storedConfidence, hr]
    rfl

/-- Witness for `storeExtractedMemory_confidence`: a stored row with no
extractor confidence ends up with confidence `1.0`. -/
theorem storeExtractedMemory_confidence_witness :
    storedConfidence ⟨"u", "personal", "k", "v", none, none⟩ = 1 :=
  (storeExtractedMemory_confidence "u" ⟨[⟨"personal", "k", "v", none⟩]⟩ none).2
    ⟨"u", "personal", "k", "v", none, none⟩ (List.mem_singleton.mpr rfl) rfl

/-- **C9 (counterexample).** A candidate with the out-of-set category
`"weird"` is stored with category `"weird"` verbatim: the storage path
neither rejects nor coerces it. -/
theorem storeExtractedMemory_category_counterexample :
    (storeExtractedMemory "u" ⟨[⟨"weird", "k", "v", some 1⟩]⟩ none).map
        (fun r => r.category) = ["weird"] ∧
    "weird" ∉ allowedCategories :=
  ⟨rfl, by decide⟩

/-- **C9 (amended).** `storeExtractedMemory` stores every candidate's
category string as-is: the inserted rows carry exactly the candidates'
category strings, with no validation against the six-value set anywhere
on the storage path (the `category` column of `shared/schema.ts` is plain
`text`, so the database does not reject them either). -/
theorem storeExtractedMemory_category_verbatim (userId : String)
    (extracted : ExtractedMemory) (mid : Option String) :
    (storeExtractedMemory userId extracted mid).map (fun r => r.category) =
      extracted.facts.map (fun f => f.category) := by
  rw [storeExtractedMemory, List.map_map]
  rfl

/-- **C7.** On the empty transcript the extractor short-circuits: it
returns the empty fact object and the oracle-invocation count is 0, for
every oracle. -/
theorem extractMemory_empty_transcript (userId : String)
    (oracle : String → Option String) :
    extractMemoryFromConversation [] userId oracle = (emptyExtracted, 0) := rfl

/-- **C6 (counterexample).** The parse is greedy, not first-balanced: on
an oracle response consisting of a well-formed fact object followed by
`" \x7b\x7d"`, the regex `/\x7b[\s\S]*\x7d/` matches from the first brace
to the *last* brace, `JSON.parse` of that span throws, and the code
returns the empty fact object — while decoding the first *balanced*
region yields one fact.  So the code's result does not decode the first
balanced region. -/
theorem extractMemory_greedy_counterexample :
    extractMemoryFromConversation [⟨"user", "hi"⟩] "u" (fun _ => some
        "\x7b\"facts\": [\x7b\"category\": \"personal\", \"key\": \"k\", \"value\": \"v\", \"confidence\": 1\x7d]\x7d \x7b\x7d") =
      (emptyExtracted, 1) ∧
    specExtractFacts
        "\x7b\"facts\": [\x7b\"category\": \"personal\", \"key\": \"k\", \"value\": \"v\", \"confidence\": 1\x7d]\x7d \x7b\x7d" =
      [⟨"personal", "k", "v", some (1, 0)⟩] ∧
    decodeExtracted emptyExtracted = some [] ∧
    ([] : List DecodedFact) ≠ [⟨"personal", "k", "v", some (1, 0)⟩] :=
  ⟨rfl, rfl, rfl, by decide⟩

/-- **C6 (amended).** For every non-empty transcript, the extractor takes
the greedy regex span of the response (first `\x7b` to last `\x7d`),
attempts `JSON.parse` on it, and returns the parsed value unvalidated;
every failure — oracle call failure, no regex match, or a parse error —
yields the empty fact object, and no failure ever propagates to the
caller (the model is a total function). -/
theorem extractMemory_failure_modes (messages : List Message)
    (userId : String) (resp : String) (region : List Char) (j : Json)
    (h : messages ≠ []) :
    extractMemoryFromConversation messages userId (fun _ => none) =
      (emptyExtracted, 1) ∧
    (jsonMatch resp.toList = none →
      extractMemoryFromConversation messages userId (fun _ => some resp) =
        (emptyExtracted, 1)) ∧
    (jsonMatch resp.toList = some region → parseJson region = none →
      extractMemoryFromConversation messages userId (fun _ => some resp) =
        (emptyExtracted, 1)) ∧
    (jsonMatch resp.toList = some region → parseJson region = some j →
      extractMemoryFromConversation messages userId (fun _ => some resp) =
        (j, 1)) := by
  have hne : messages.isEmpty = false := by
    cases messages with
    | nil => exact absurd rfl h
    | cons m ms => rfl
  refine ⟨?_, ?_, ?_, ?_⟩
  · rw [extractMemoryFromConversation, if_neg (by simp [hne])]
  · intro h1
    rw [extractMemoryFromConversation, if_neg (by simp [hne])]
    simp only [h1]
  · intro h1 h2
    rw [extractMemoryFromConversation, if_neg (by simp [hne])]
    simp only [h1, h2]
  · intro h1 h2
    rw [extractMemoryFromConversation, if_neg (by simp [hne])]
    simp only [h1, h2]

/-- Witness for `extractMemory_failure_modes` at a one-message transcript
and the braceless response `"no json here"`. -/
theorem extractMemory_failure_modes_witness :
    ([⟨"user", "hi"⟩] : List Message) ≠ [] ∧
    (extractMemoryFromConversation [⟨"user", "hi"⟩] "u" (fun _ => none) =
        (emptyExtracted, 1) ∧
      (jsonMatch "no json here".toList = none →
        extractMemoryFromConversation [⟨"user", "hi"⟩] "u"
            (fun _ => some "no json here") = (emptyExtracted, 1)) ∧
      (jsonMatch "no json here".toList = some [] → parseJson [] = none →
        extractMemoryFromConversation [⟨"user", "hi"⟩] "u"
            (fun _ => some "no json here") = (emptyExtracted, 1)) ∧
      (jsonMatch "no json here".toList = some [] → parseJson [] = some Json.null →
        extractMemoryFromConversation [⟨"user", "hi"⟩] "u"
            (fun _ => some "no json here") = (Json.null, 1))) :=
  ⟨by decide,
   extractMemory_failure_modes [⟨"user", "hi"⟩] "u" "no json here" [] Json.null
     (by decide)⟩
